import Mathlib

/-
Verification development for Visual Leak Detector
(src/vld.cpp, Version 0.9d, and src/utility.cpp, Version 1.0).

Shallow embedding of:
  - the block allocation map and the hookmalloc / hookfree / hookrealloc
    handlers (vld.cpp 579-628);
  - the CRT allocation hook dispatcher allochook (vld.cpp 247-287);
  - the leak scan reportleaks (vld.cpp 759-882);
  - the stack walking loop getstacktrace (vld.cpp 521-567);
  - the import patcher patchimport / restoreimport / patchmodule /
    restoremodule (utility.cpp 251-343, 418-508);
  - the bounded report formatting of VisualLeakDetector::report (vld.cpp
    723-734) and of report in utility.cpp (359-397);
  - the symbol search path construction buildsymbolsearchpath
    (vld.cpp 300-397).

Machine integers that matter here (request numbers, addresses, characters)
are modelled as Nat; the CRT hook type and block-use codes as Int, with the
numeric values of crtdbg.h. Pointers to heap blocks are modelled by the
request number stored in the block header (pHdr(pdata)->lRequest), which is
the only thing the embedded code reads from them.
-/

namespace VLD

/-- A call stack: the ordered program counter values pushed by
getstacktrace (vld.cpp 565: callstack->push_back(frame.AddrPC.Offset)). -/
abbrev CallStack := List Nat

/-- Modelled from the spec: the BlockLedger / BlockMap of vldutil.h (not in
the source set) is "a mapping from requestId to BlockRecord, keys unique,
... must support fast lookup and fast erase".  We model it as an
association list with unique keys. -/
abbrev BlockMap := List (Nat × CallStack)

/-- Modelled from the spec: BlockMap::erase removes the entry for the given
request number, if present (keys are unique). -/
def mapErase (m : BlockMap) (k : Nat) : BlockMap :=
  m.filter (fun p => p.1 != k)

/-- Modelled from the spec: BlockMap::insert adds an entry for the given
request number; keys stay unique, so any stale entry for the same key is
replaced. -/
def mapInsert (m : BlockMap) (k : Nat) (v : CallStack) : BlockMap :=
  (k, v) :: mapErase m k

/-- Modelled from the spec: BlockMap::find returns the CallStack stored for
a request number, or nothing when the request is not in the map. -/
def mapFind (m : BlockMap) (k : Nat) : Option CallStack :=
  (m.find? (fun p => p.1 == k)).map (fun p => p.2)

/-- vld.cpp 600-606, hookmalloc: store the captured call stack in the block
map keyed by the allocation request number.  The stack capture
(getstacktrace) is passed in as `cs`. -/
def hookmalloc (m : BlockMap) (request : Nat) (cs : CallStack) : BlockMap :=
  mapInsert m request cs

/-- vld.cpp 579-584, hookfree: erase the entry for the freed block's request
number (pHdr(pdata)->lRequest). -/
def hookfree (m : BlockMap) (request : Nat) : BlockMap :=
  mapErase m request

/-- vld.cpp 621-628, hookrealloc: a free followed by a malloc, both using
the request number read from the reallocated block's header. -/
def hookrealloc (m : BlockMap) (request : Nat) (cs : CallStack) : BlockMap :=
  hookmalloc (hookfree m request) request cs

/-- An alloc(id)/free(id) event as observed by the dispatcher; an alloc
carries the call stack captured for it. -/
inductive Event where
  | alloc (id : Nat) (cs : CallStack)
  | free (id : Nat)
deriving DecidableEq

/-- Apply one event to the block map, as the dispatcher does:
alloc goes through hookmalloc, free through hookfree. -/
def applyEvent (m : BlockMap) : Event → BlockMap
  | .alloc id cs => hookmalloc m id cs
  | .free id => hookfree m id

/-- Fold a whole event sequence through the dispatcher's handlers. -/
def processEvents (m : BlockMap) (evs : List Event) : BlockMap :=
  evs.foldl applyEvent m

/-- One step of the "is request k live" abstraction: an alloc of k makes it
live, a free of k kills it, other events leave it alone. -/
def stepLive (k : Nat) (b : Bool) : Event → Bool
  | .alloc k' _ => if k' = k then true else b
  | .free k' => if k' = k then false else b

/-- Whether request k is live after a sequence of events, starting from
liveness `init`. -/
def liveAfter (init : Bool) (k : Nat) (evs : List Event) : Bool :=
  evs.foldl (stepLive k) init

/-- One _CrtMemBlockHeader node of the debug heap's allocated-block list, as
read by reportleaks: the request number, the block-use code and the data
size. -/
structure HeapBlock where
  lRequest : Nat
  nBlockUse : Nat
  nDataSize : Nat
deriving DecidableEq

/-- crtdbg.h _BLOCK_SUBTYPE(use) = (use >> 16) & 0xFFFF. -/
def blockSubtype (use : Nat) : Nat :=
  use / 65536 % 65536

/-- Modelled from the spec: the block-use subtype tag that marks blocks
"internal to this engine itself (these are expected bookkeeping allocations,
never leaks)".  The tag is defined in vldutil.h, which is not in the source
set; its numeric value is immaterial, only the comparison in reportleaks
matters. -/
def VLDINTERNALBLOCK : Nat := 86

/-- vld.cpp 803: _BLOCK_SUBTYPE(pheader->nBlockUse) == VLDINTERNALBLOCK. -/
def isInternalBlock (b : HeapBlock) : Bool :=
  blockSubtype b.nBlockUse == VLDINTERNALBLOCK

/-- vld.cpp 759-882, reportleaks: walk the heap's allocated-block list; skip
blocks internal to the engine; look each remaining block's request number up
in the block map and count a leak on every hit.  Returns the leak count
together with the block map, which the scan only reads (m_mallocmap->find),
never writes. -/
def reportleaksScan (m : BlockMap) : List HeapBlock → Nat × BlockMap
  | [] => (0, m)
  | b :: rest =>
    if isInternalBlock b then reportleaksScan m rest
    else
      match mapFind m b.lRequest with
      | some _ => ((reportleaksScan m rest).1 + 1, (reportleaksScan m rest).2)
      | none => reportleaksScan m rest

/-- The leak count reported by reportleaks (its `leaksfound` counter). -/
def reportleaksCount (m : BlockMap) (heap : List HeapBlock) : Nat :=
  (reportleaksScan m heap).1

/-- crtdbg.h _HOOK_ALLOC. -/
def HOOK_ALLOC : Int := 1
/-- crtdbg.h _HOOK_REALLOC. -/
def HOOK_REALLOC : Int := 2
/-- crtdbg.h _HOOK_FREE. -/
def HOOK_FREE : Int := 3
/-- crtdbg.h _CRT_BLOCK. -/
def CRT_BLOCK : Int := 2

/-- Observable outcome of one allochook invocation: the returned status, how
many times the previously installed hook was forwarded to, how many warning
messages were reported, and the final reentrancy flag and block map. -/
structure HookResult where
  status : Bool
  forwards : Nat
  warnings : Nat
  inallochook : Bool
  mallocmap : BlockMap
deriving DecidableEq

/-- vld.cpp 247-287, allochook.  `oldhook` is the previously installed hook
m_poldhook, modelled by the status it would return for this event (none when
no previous hook is installed).  `pdataRequest` is pHdr(pdata)->lRequest,
the request number read from the block header on free/realloc events.  `cs`
is the call stack getstacktrace would capture for an alloc.  `inallochook`
and `m` are the static guard flag and the block map on entry. -/
def allochook (oldhook : Option Bool) (ty : Int) (pdataRequest : Nat)
    (use : Int) (request : Nat) (cs : CallStack)
    (inallochook : Bool) (m : BlockMap) : HookResult :=
  if inallochook || use == CRT_BLOCK then
    { status := oldhook.getD true
      forwards := if oldhook.isSome then 1 else 0
      warnings := 0
      inallochook := inallochook
      mallocmap := m }
  else
    let m' :=
      if ty == HOOK_ALLOC then hookmalloc m request cs
      else if ty == HOOK_FREE then hookfree m pdataRequest
      else if ty == HOOK_REALLOC then hookrealloc m pdataRequest cs
      else m
    let w : Nat :=
      if ty == HOOK_ALLOC || ty == HOOK_FREE || ty == HOOK_REALLOC then 0 else 1
    { status := oldhook.getD true
      forwards := if oldhook.isSome then 1 else 0
      warnings := w
      inallochook := false
      mallocmap := m' }

/-- Modelled from the spec: the ignore-list variant of the allocation
handler.  The engine code implementing the vld.ini IgnoreFunctionsList is
not in the source set (only tests/ignore_functions_test exercises it); per
the spec, "alloc: capture a CallStack via StackWalker; if the immediate
caller matches the IgnoreList, do nothing further; else insert a new
BlockRecord keyed by the allocation's request identifier".  `resolveName`
maps a program counter to the fully-qualified function name of its frame;
the immediate caller is the first entry of the captured call stack. -/
def hookmallocIgnore (ignore : List String) (resolveName : Nat → String)
    (m : BlockMap) (request : Nat) (cs : CallStack) : BlockMap :=
  match cs.head? with
  | some pc =>
    if ignore.contains (resolveName pc) then m else mapInsert m request cs
  | none => mapInsert m request cs

/-- Apply one event with the ignore-list allocation handler. -/
def applyEventIgnore (ignore : List String) (resolveName : Nat → String)
    (m : BlockMap) : Event → BlockMap
  | .alloc id cs => hookmallocIgnore ignore resolveName m id cs
  | .free id => hookfree m id

/-- Fold an event sequence through the ignore-list handlers. -/
def processEventsIgnore (ignore : List String) (resolveName : Nat → String)
    (m : BlockMap) (evs : List Event) : BlockMap :=
  evs.foldl (applyEventIgnore ignore resolveName) m

/-- One answer of the stack-walking service for one loop iteration of
getstacktrace: none when StackWalk64 returns FALSE, otherwise the
frame's AddrPC.Offset and AddrFrame.Offset. -/
abbrev WalkFrame := Option (Nat × Nat)

/-- Whether the walk loop continues past this service answer: StackWalk64
succeeded and the frame pointer is not the end-of-stack sentinel zero. -/
def frameOK : WalkFrame → Bool
  | none => false
  | some (_, fp) => fp != 0

/-- The program counter of a service answer. -/
def framePC : WalkFrame → Nat
  | none => 0
  | some (pc, _) => pc

/-- vld.cpp 521-567, getstacktrace: the walk loop.  `svc` is the sequence of
StackWalk64 results for successive calls (an exhausted list behaves like a
failing call).  Mirrors: while (count < maxframes) { count++; if
(!StackWalk64) break; if (frame.AddrFrame.Offset == 0) break;
callstack->push_back(frame.AddrPC.Offset); }. -/
def getstacktrace : Nat → List WalkFrame → List Nat
  | 0, _ => []
  | _ + 1, [] => []
  | _ + 1, none :: _ => []
  | n + 1, some (pc, fp) :: rest =>
    if fp = 0 then [] else pc :: getstacktrace n rest

/-- utility.cpp: one IAT scan-and-overwrite, the common core of patchimport
(utility.cpp 291-304) and restoreimport (utility.cpp 458-470): walk along
the import address table until a zero entry; at the first entry equal to `key`,
overwrite it with `val` and stop. -/
def iatOverwrite (key val : Nat) : List Nat → List Nat
  | [] => []
  | e :: rest =>
    if e = 0 then e :: rest
    else if e = key then val :: rest
    else e :: iatOverwrite key val rest

/-- Number of occurrences of `k` in the region of the IAT that the scan of
iatOverwrite can reach (the prefix before the first zero entry). -/
def countBeforeZero (k : Nat) : List Nat → Nat
  | [] => 0
  | e :: rest =>
    if e = 0 then 0 else (if e = k then 1 else 0) + countBeforeZero k rest

/-- ASCII lower-casing of a character code, as _stricmp compares. -/
def lowerCode (n : Nat) : Nat :=
  if 65 ≤ n ∧ n ≤ 90 then n + 32 else n

/-- utility.cpp 271/438: _stricmp(...) == 0, case-insensitive module name
comparison. -/
def strieq (a b : String) : Bool :=
  a.data.map (fun c => lowerCode c.toNat) == b.data.map (fun c => lowerCode c.toNat)

/-- A module's import data: for each import descriptor (IDT entry), the name
of the exporting module and the import address table reached through
FirstThunk.  The zero terminators of the IDT and IAT are modelled by the
list ends (iatOverwrite additionally stops at explicit zero entries). -/
abbrev ModuleImports := List (String × List Nat)

/-- utility.cpp 270-276 / 437-443: walk the import descriptor table for the
first descriptor whose module name matches case-insensitively, and apply `f`
to its IAT; if no descriptor matches, change nothing. -/
def updateIDT (ename : String) (f : List Nat → List Nat) :
    ModuleImports → ModuleImports
  | [] => []
  | (n, iat) :: rest =>
    if strieq n ename then (n, f iat) :: rest
    else (n, iat) :: updateIDT ename f rest

/-- utility.cpp 326: one patchentry_t of a patch table. -/
structure patchentry_t where
  exportmodulename : String
  importname : String
  replacement : Nat
deriving DecidableEq

/-- The real exported address of entry `e`'s import, as resolved by
GetModuleHandleA + GetProcAddress (utility.cpp 285-288/451-454); `gpa`
models that resolution. -/
def realAddr (gpa : String → String → Nat) (e : patchentry_t) : Nat :=
  gpa e.exportmodulename e.importname

/-- utility.cpp 251-305, patchimport: find the descriptor for the exporting
module, resolve the real address of the named import, and overwrite the
first IAT entry holding the real address with the replacement address. -/
def patchimport (gpa : String → String → Nat) (m : ModuleImports)
    (ename iname : String) (replacement : Nat) : ModuleImports :=
  updateIDT ename (iatOverwrite (gpa ename iname) replacement) m

/-- utility.cpp 418-471, restoreimport: find the descriptor for the
exporting module, resolve the real address of the named import, and
overwrite the first IAT entry holding the replacement address with the real
address. -/
def restoreimport (gpa : String → String → Nat) (m : ModuleImports)
    (ename iname : String) (replacement : Nat) : ModuleImports :=
  updateIDT ename (iatOverwrite replacement (gpa ename iname)) m

/-- utility.cpp 326-343, patchmodule: patch each table entry in order. -/
def patchmodule (gpa : String → String → Nat) (m : ModuleImports)
    (t : List patchentry_t) : ModuleImports :=
  t.foldl (fun acc e =>
    patchimport gpa acc e.exportmodulename e.importname e.replacement) m

/-- utility.cpp 491-508, restoremodule: restore each table entry in order. -/
def restoremodule (gpa : String → String → Nat) (m : ModuleImports)
    (t : List patchentry_t) : ModuleImports :=
  t.foldl (fun acc e =>
    restoreimport gpa acc e.exportmodulename e.importname e.replacement) m

/-- The buffer region written by MSVC _vsnprintf(buf, count, ...) when the
fully formatted message is `msg` (character codes): if the message is
shorter than `count` it is written followed by a null terminator; otherwise
exactly `count` characters are written and no terminator is appended. -/
def vsnprintfModel (count : Nat) (msg : List Nat) : List Nat :=
  if msg.length < count then msg ++ [0] else msg.take count

/-- vld.cpp 726: MAXREPORTMESSAGESIZE, the message buffer capacity of
VisualLeakDetector::report. -/
def MAXREPORTMESSAGESIZE : Nat := 513

/-- vld.cpp 723-734, VisualLeakDetector::report: the buffer region written
by _vsnprintf(message, MAXREPORTMESSAGESIZE, format, args); the function
adds no terminator of its own before OutputDebugString(message). -/
def vldReportBuffer (msg : List Nat) : List Nat :=
  vsnprintfModel MAXREPORTMESSAGESIZE msg

/-- utility.cpp 359-397, report: the string handed to the output sinks.
The buffer has maxlen + 1 cells; _vsnwprintf(messagew, maxlen, ...) writes
the message region and messagew[maxlen] = 0 is stored unconditionally, so
the emitted string is the written region up to the first terminator
(maxlen is MAXREPORTLENGTH of utility.h). -/
def utilityReportEmitted (maxlen : Nat) (msg : List Nat) : List Nat :=
  (((vsnprintfModel maxlen msg).take maxlen) ++ [0]).takeWhile (fun c => c != 0)

/-- vld.cpp 322-339: copy the command line up to the first space that is not
inside double quotes (quote characters toggle `inquote` and are kept). -/
def takeArgv0 (inquote : Bool) : List Char → List Char
  | [] => []
  | c :: rest =>
    if c = ' ' ∧ inquote = false then []
    else if c = '"' then c :: takeArgv0 (!inquote) rest
    else c :: takeArgv0 inquote rest

/-- Index of the last backslash of the list, if any. -/
def lastBackslash : List Char → Option Nat
  | [] => none
  | c :: rest =>
    match lastBackslash rest with
    | some i => some (i + 1)
    | none => if c = '\\' then some 0 else none

/-- vld.cpp 341-352: truncate just after the last backslash to turn the
executable's path into its directory; when no backslash is found the path
becomes a single backslash. -/
def dirOf (p : List Char) : List Char :=
  match lastBackslash p with
  | some i => p.take (i + 1)
  | none => ['\\']

/-- vld.cpp 384-394: the quote-removal pass.  On finding a quote the code
shifts the rest of the buffer left by one and then still increments the
scan position, so the character that moved into the quote's place is
skipped; positions past the shrinking string hold null characters and
cannot match. -/
def removeQuotes : List Char → List Char
  | [] => []
  | c :: rest =>
    if c = '"' then
      match rest with
      | [] => []
      | d :: rest2 => d :: removeQuotes rest2
    else c :: removeQuotes rest

/-- No two adjacent characters of the list are both double quotes. -/
def noAdjQuotes : List Char → Bool
  | [] => true
  | [_] => true
  | c :: d :: rest =>
    if c = '"' ∧ d = '"' then false else noAdjQuotes (d :: rest)

/-- vld.cpp 362-382: the environment-derived tail of the search path: when
the variables are set, ";%SYSTEMROOT%;%SYSTEMROOT%\system32", then
";%_NT_SYMBOL_PATH%", then ";%_NT_ALT_SYMBOL_PATH%". -/
def symsearchEnv (sysroot ntsym ntalt : Option (List Char)) : List Char :=
  (match sysroot with
    | some e => [';'] ++ e ++ [';'] ++ e ++ ['\\'] ++ "system32".data
    | none => [])
    ++ (match ntsym with
        | some e => ';' :: e
        | none => [])
    ++ (match ntalt with
        | some e => ';' :: e
        | none => [])

/-- vld.cpp 300-383: the symbol search path as concatenated before the
quote-removal pass: executable directory (from the command line, quote
aware), then ";.\", then the environment-derived directories. -/
def symsearchConcat (cmd : List Char)
    (sysroot ntsym ntalt : Option (List Char)) : List Char :=
  dirOf (takeArgv0 false cmd) ++ [';', '.', '\\']
    ++ symsearchEnv sysroot ntsym ntalt

/-- vld.cpp 300-397, buildsymbolsearchpath: the final m_symbolpath. -/
def buildsymbolsearchpath (cmd : List Char)
    (sysroot ntsym ntalt : Option (List Char)) : List Char :=
  removeQuotes (symsearchConcat cmd sysroot ntsym ntalt)

/-! ## Block map lemmas -/

theorem mapFind_erase (m : BlockMap) (k k' : Nat) :
    mapFind (mapErase m k') k = if k = k' then none else mapFind m k := by
  induction m with
  | nil => simp [mapErase, mapFind]
  | cons p m ih =>
    obtain ⟨a, cs⟩ := p
    by_cases hak : a = k'
    · subst hak
      by_cases hk : k = a
      · subst hk
        set_option linter.unnecessarySimpa false in
        simpa [mapErase, mapFind, List.filter_cons] using ih
      · simp only [mapErase, mapFind, List.filter_cons] at ih ⊢
        simp only [bne_self_eq_false, if_neg hk] at ih ⊢
        simpa [mapFind, List.find?_cons, Ne.symm hk ] using ih
    · by_cases hk : a = k
      · subst hk
        simp [mapErase, mapFind, List.filter_cons, bne_iff_ne, hak,
          List.find?_cons, Ne.symm hak]
      · simp only [mapErase, mapFind, List.filter_cons] at ih ⊢
        simp only [bne_iff_ne, Ne, hak, not_false_iff, if_pos] at ih ⊢
        simpa [mapFind, List.find?_cons, hk] using ih

theorem mapFind_insert (m : BlockMap) (k k' : Nat) (cs : CallStack) :
    mapFind (mapInsert m k' cs) k = if k = k' then some cs else mapFind m k := by
  unfold mapInsert mapFind
  by_cases hk : k = k'
  · subst hk
    rw [List.find?_cons_of_pos _ (by simp)]
    simp
  · rw [List.find?_cons_of_neg _ (by simp [Ne.symm hk])]
    have h1 := mapFind_erase m k k'
    rw [if_neg hk] at h1
    simp only [mapFind] at h1
    simp [h1, hk]

/-! ## Event processing: the final map holds exactly the live requests -/

theorem processEvents_cons (m : BlockMap) (e : Event) (evs : List Event) :
    processEvents m (e :: evs) = processEvents (applyEvent m e) evs := rfl

theorem isSome_mapFind_processEvents (k : Nat) :
    ∀ (evs : List Event) (m : BlockMap),
      (mapFind (processEvents m evs) k).isSome
        = liveAfter ((mapFind m k).isSome) k evs := by
  intro evs
  induction evs with
  | nil => intro m; rfl
  | cons e rest ih =>
    intro m
    rw [processEvents_cons]
    have hstep : (mapFind (applyEvent m e) k).isSome
        = stepLive k ((mapFind m k).isSome) e := by
      cases e with
      | alloc k' cs =>
        by_cases hk : k' = k
        · subst hk
          simp [applyEvent, hookmalloc, mapFind_insert, stepLive]
        · simp [applyEvent, hookmalloc, mapFind_insert, Ne.symm hk, stepLive, hk]
      | free k' =>
        by_cases hk : k' = k
        · subst hk
          simp [applyEvent, hookfree, mapFind_erase, stepLive]
        · simp [applyEvent, hookfree, mapFind_erase, Ne.symm hk, stepLive, hk]
    rw [ih (applyEvent m e), hstep]
    rfl

theorem liveAfter_append (init : Bool) (k : Nat) (l1 l2 : List Event) :
    liveAfter init k (l1 ++ l2) = liveAfter (liveAfter init k l1) k l2 := by
  simp [liveAfter, List.foldl_append]

theorem exists_alloc_nil_iff (k : Nat) :
    (∃ l1 cs l2, ([] : List Event) = l1 ++ Event.alloc k cs :: l2
        ∧ Event.free k ∉ l2) ↔ False := by
  constructor
  · rintro ⟨l1, cs, l2, h, -⟩
    exact absurd h.symm (List.append_ne_nil_of_right_ne_nil l1 (List.cons_ne_nil _ _))
  · exact False.elim

theorem exists_alloc_snoc (evs : List Event) (k : Nat) (x : Event) :
    (∃ l1 cs l2, evs ++ [x] = l1 ++ Event.alloc k cs :: l2 ∧ Event.free k ∉ l2)
      ↔ (∃ cs, x = Event.alloc k cs)
        ∨ ((∃ l1 cs l2, evs = l1 ++ Event.alloc k cs :: l2 ∧ Event.free k ∉ l2)
            ∧ x ≠ Event.free k) := by
  constructor
  · rintro ⟨l1, cs, l2, heq, hnot⟩
    rcases l2.eq_nil_or_concat with rfl | ⟨l2', a, rfl⟩
    · left
      have h := List.append_inj' heq (by rfl)
      exact ⟨cs, (List.singleton_injective h.2).symm ▸ rfl⟩
    · right
      have heq' : evs ++ [x] = (l1 ++ Event.alloc k cs :: l2') ++ [a] := by
        simpa [List.append_assoc] using heq
      have h := List.append_inj' heq' (by rfl)
      have hxa : x = a := List.singleton_injective h.2
      refine ⟨⟨l1, cs, l2', h.1, fun hm => hnot (by simp [hm])⟩, ?_⟩
      intro hx
      exact hnot (by simp [hxa ▸ hx])
  · rintro (⟨cs, rfl⟩ | ⟨⟨l1, cs, l2, rfl, hn⟩, hx⟩)
    · exact ⟨evs, cs, [], by simp, by simp⟩
    · refine ⟨l1, cs, l2 ++ [x], by simp, ?_⟩
      intro hm
      rcases List.mem_append.mp hm with h | h
      · exact hn h
      · exact hx (List.mem_singleton.mp h).symm

theorem liveAfter_singleton (b : Bool) (k : Nat) (e : Event) :
    liveAfter b k [e] = stepLive k b e := rfl

theorem liveAfter_false_iff (k : Nat) (evs : List Event) :
    liveAfter false k evs = true
      ↔ ∃ l1 cs l2, evs = l1 ++ Event.alloc k cs :: l2 ∧ Event.free k ∉ l2 := by
  induction evs using List.reverseRecOn with
  | nil => simp [liveAfter, exists_alloc_nil_iff k]
  | append_singleton l e ih =>
    rw [liveAfter_append, liveAfter_singleton, exists_alloc_snoc]
    cases e with
    | alloc k' cs =>
      by_cases hk : k' = k
      · subst k'
        rw [show stepLive k (liveAfter false k l) (Event.alloc k cs) = true from
          by simp [stepLive]]
        constructor
        · intro _
          exact Or.inl ⟨cs, rfl⟩
        · intro _
          rfl
      · rw [show stepLive k (liveAfter false k l) (Event.alloc k' cs)
            = liveAfter false k l from by simp [stepLive, hk]]
        constructor
        · intro h
          exact Or.inr ⟨ih.mp h, by simp⟩
        · rintro (⟨cs', heq⟩ | ⟨h, -⟩)
          · cases heq
            exact absurd rfl hk
          · exact ih.mpr h
    | free k' =>
      by_cases hk : k' = k
      · subst k'
        rw [show stepLive k (liveAfter false k l) (Event.free k) = false from
          by simp [stepLive]]
        constructor
        · intro h
          exact absurd h (by simp)
        · rintro (⟨cs', heq⟩ | ⟨-, hx⟩)
          · exact absurd heq (by simp)
          · exact absurd rfl hx
      · rw [show stepLive k (liveAfter false k l) (Event.free k')
            = liveAfter false k l from by simp [stepLive, hk]]
        constructor
        · intro h
          exact Or.inr ⟨ih.mp h, by simp [hk]⟩
        · rintro (⟨cs', heq⟩ | ⟨h, -⟩)
          · exact absurd heq (by simp)
          · exact ih.mpr h

/-! ## Leak scan lemmas -/

theorem reportleaksScan_snd (m : BlockMap) :
    ∀ heap : List HeapBlock, (reportleaksScan m heap).2 = m := by
  intro heap
  induction heap with
  | nil => rfl
  | cons b rest ih =>
    by_cases hint : isInternalBlock b
    · simpa [reportleaksScan, hint] using ih
    · cases hfind : mapFind m b.lRequest with
      | some cs => simpa [reportleaksScan, hint, hfind] using ih
      | none => simpa [reportleaksScan, hint, hfind] using ih

theorem reportleaksCount_cons (m : BlockMap) (b : HeapBlock)
    (rest : List HeapBlock) :
    reportleaksCount m (b :: rest)
      = if isInternalBlock b then reportleaksCount m rest
        else if (mapFind m b.lRequest).isSome then reportleaksCount m rest + 1
        else reportleaksCount m rest := by
  by_cases hint : isInternalBlock b
  · simp [reportleaksCount, reportleaksScan, hint]
  · cases hfind : mapFind m b.lRequest with
    | some cs => simp [reportleaksCount, reportleaksScan, hint, hfind]
    | none => simp [reportleaksCount, reportleaksScan, hint, hfind]

theorem reportleaksCount_eq_filter_length (m : BlockMap) :
    ∀ heap : List HeapBlock,
      reportleaksCount m heap
        = (heap.filter
            (fun b => !isInternalBlock b && (mapFind m b.lRequest).isSome)).length := by
  intro heap
  induction heap with
  | nil => rfl
  | cons b rest ih =>
    rw [reportleaksCount_cons, List.filter_cons]
    by_cases hint : isInternalBlock b
    · simp [hint, ih]
    · by_cases hfind : (mapFind m b.lRequest).isSome
      · simp [hint, hfind, ih]
      · simp [hint, hfind, ih, Bool.not_eq_true _ ▸ hfind]

theorem reportleaksCount_filter_ne (m : BlockMap) (k : Nat)
    (hnone : mapFind m k = none) :
    ∀ heap : List HeapBlock,
      reportleaksCount m heap
        = reportleaksCount m (heap.filter (fun b => b.lRequest != k)) := by
  intro heap
  induction heap with
  | nil => rfl
  | cons b rest ih =>
    rw [reportleaksCount_cons, List.filter_cons]
    by_cases hbk : b.lRequest = k
    · have hfind : mapFind m b.lRequest = none := hbk ▸ hnone
      simp [hbk, hfind, hnone, ih]
    · have hcond : ((b.lRequest != k) = true) := by simp [hbk]
      rw [if_pos hcond, reportleaksCount_cons]
      by_cases hint : isInternalBlock b
      · simp [hint, ih]
      · by_cases hfind : (mapFind m b.lRequest).isSome
        · simp [hint, hfind, ih]
        · simp [hint, hfind, ih]

/-- Claim C1: for every sequence of alloc(id)/free(id) events run through
hookmalloc/hookfree, the block map ends up holding exactly the request
identifiers that were allocated and never subsequently freed, and
reportleaks counts as a leak precisely each non-internal heap block whose
request identifier is found in that map. -/
theorem hook_leak_report_exact (evs : List Event) (heap : List HeapBlock) :
    (∀ k, (mapFind (processEvents [] evs) k).isSome = true
        ↔ ∃ l1 cs l2, evs = l1 ++ Event.alloc k cs :: l2 ∧ Event.free k ∉ l2)
    ∧ reportleaksCount (processEvents [] evs) heap
        = (heap.filter
            (fun b => !isInternalBlock b
              && (mapFind (processEvents [] evs) b.lRequest).isSome)).length := by
  constructor
  · intro k
    have h1 := isSome_mapFind_processEvents k evs []
    have h0 : (mapFind ([] : BlockMap) k).isSome = false := rfl
    rw [h1, h0, liveAfter_false_iff]
  · exact reportleaksCount_eq_filter_length _ heap

/-! ## The dispatcher: guarded events and unknown event types -/

/-- Claim C2: an allocation/reallocation/free event delivered while the
reentrancy guard is already set, or whose block-use type is _CRT_BLOCK,
performs no tracking (the block map and the guard are left unchanged) and is
forwarded to the previously installed hook exactly once, or not at all when
no previous hook is installed, returning that hook's status (true when there
is none). -/
theorem allochook_guarded_no_tracking (oldhook : Option Bool) (ty : Int)
    (pdataRequest : Nat) (use : Int) (request : Nat) (cs : CallStack)
    (flag : Bool) (m : BlockMap)
    (h : flag = true ∨ use = CRT_BLOCK) :
    (allochook oldhook ty pdataRequest use request cs flag m).mallocmap = m
    ∧ (allochook oldhook ty pdataRequest use request cs flag m).inallochook = flag
    ∧ (allochook oldhook ty pdataRequest use request cs flag m).forwards
        = (if oldhook.isSome then 1 else 0)
    ∧ (allochook oldhook ty pdataRequest use request cs flag m).status
        = oldhook.getD true
    ∧ (allochook oldhook ty pdataRequest use request cs flag m).warnings = 0 := by
  have hcond : (flag || use == CRT_BLOCK) = true := by
    rcases h with h | h
    · simp [h]
    · simp [h]
  simp [allochook, hcond]

/-- Witness for allochook_guarded_no_tracking: a _CRT_BLOCK alloc event with
a previous hook installed and the guard clear. -/
theorem allochook_guarded_no_tracking_witness :
    (allochook (some false) HOOK_ALLOC 0 CRT_BLOCK 7 [3] false [(9, [1])]).mallocmap
        = [(9, [1])]
    ∧ (allochook (some false) HOOK_ALLOC 0 CRT_BLOCK 7 [3] false [(9, [1])]).inallochook
        = false
    ∧ (allochook (some false) HOOK_ALLOC 0 CRT_BLOCK 7 [3] false [(9, [1])]).forwards
        = (if (some false).isSome then 1 else 0)
    ∧ (allochook (some false) HOOK_ALLOC 0 CRT_BLOCK 7 [3] false [(9, [1])]).status
        = (some false).getD true
    ∧ (allochook (some false) HOOK_ALLOC 0 CRT_BLOCK 7 [3] false [(9, [1])]).warnings
        = 0 :=
  allochook_guarded_no_tracking (some false) HOOK_ALLOC 0 CRT_BLOCK 7 [3] false
    [(9, [1])] (Or.inr rfl)

/-- Claim C10: an unguarded event whose type is none of _HOOK_ALLOC,
_HOOK_REALLOC, _HOOK_FREE leaves the block map unchanged, reports exactly
one warning, still forwards to the previous hook when one exists, and
returns the same status a recognised event would (true when no previous
hook is installed). -/
theorem allochook_unknown_type (oldhook : Option Bool) (ty : Int)
    (pdataRequest : Nat) (use : Int) (request : Nat) (cs : CallStack)
    (m : BlockMap)
    (h1 : ty ≠ HOOK_ALLOC) (h2 : ty ≠ HOOK_REALLOC) (h3 : ty ≠ HOOK_FREE)
    (huse : use ≠ CRT_BLOCK) :
    (allochook oldhook ty pdataRequest use request cs false m).mallocmap = m
    ∧ (allochook oldhook ty pdataRequest use request cs false m).warnings = 1
    ∧ (allochook oldhook ty pdataRequest use request cs false m).forwards
        = (if oldhook.isSome then 1 else 0)
    ∧ (allochook oldhook ty pdataRequest use request cs false m).status
        = (allochook oldhook HOOK_ALLOC pdataRequest use request cs false m).status
    ∧ (oldhook = none →
        (allochook oldhook ty pdataRequest use request cs false m).status = true) := by
  have hcond : (false || use == CRT_BLOCK) = false := by simp [huse]
  refine ⟨?_, ?_, ?_, ?_, ?_⟩
  · simp [allochook, hcond, h1, h2, h3]
  · simp [allochook, hcond, h1, h2, h3]
  · simp [allochook, hcond]
  · simp [allochook, hcond]
  · intro hnone
    subst hnone
    simp [allochook, hcond]

/-- Witness for allochook_unknown_type: event type 5 with no previous
hook. -/
theorem allochook_unknown_type_witness :
    (allochook none 5 0 1 7 [3] false [(9, [1])]).mallocmap = [(9, [1])]
    ∧ (allochook none 5 0 1 7 [3] false [(9, [1])]).warnings = 1
    ∧ (allochook none 5 0 1 7 [3] false [(9, [1])]).forwards
        = (if (none : Option Bool).isSome then 1 else 0)
    ∧ (allochook none 5 0 1 7 [3] false [(9, [1])]).status
        = (allochook none HOOK_ALLOC 0 1 7 [3] false [(9, [1])]).status
    ∧ ((none : Option Bool) = none →
        (allochook none 5 0 1 7 [3] false [(9, [1])]).status = true) :=
  allochook_unknown_type none 5 0 1 7 [3] [(9, [1])]
    (by decide) (by decide) (by decide) (by decide)

/-! ## The ignore list -/

theorem processEventsIgnore_cons (ignore : List String) (rn : Nat → String)
    (m : BlockMap) (e : Event) (evs : List Event) :
    processEventsIgnore ignore rn m (e :: evs)
      = processEventsIgnore ignore rn (applyEventIgnore ignore rn m e) evs := rfl

theorem processEventsIgnore_find_none (ignore : List String)
    (rn : Nat → String) (k : Nat) :
    ∀ (evs : List Event) (m : BlockMap),
      (∀ cs, Event.alloc k cs ∈ evs →
        ∃ pc, cs.head? = some pc ∧ ignore.contains (rn pc) = true) →
      mapFind m k = none →
      mapFind (processEventsIgnore ignore rn m evs) k = none := by
  intro evs
  induction evs with
  | nil =>
    intro m _ h0
    exact h0
  | cons e rest ih =>
    intro m h h0
    rw [processEventsIgnore_cons]
    have hstep : mapFind (applyEventIgnore ignore rn m e) k = none := by
      cases e with
      | alloc k' cs =>
        by_cases hk : k' = k
        · subst k'
          obtain ⟨pc, hpc, hin⟩ := h cs (by simp)
          have hmem : rn pc ∈ ignore := by simpa using hin
          simpa [applyEventIgnore, hookmallocIgnore, hpc, hmem] using h0
        · have hins : mapFind (mapInsert m k' cs) k = mapFind m k := by
            rw [mapFind_insert, if_neg (fun hh => hk hh.symm)]
          cases hcs : cs.head? with
          | some pc =>
            by_cases hin : rn pc ∈ ignore
            · simpa [applyEventIgnore, hookmallocIgnore, hcs, hin] using h0
            · simpa [applyEventIgnore, hookmallocIgnore, hcs, hin, hins] using h0
          | none =>
            simpa [applyEventIgnore, hookmallocIgnore, hcs, hins] using h0
      | free k' =>
        by_cases hk : k = k'
        · simp [applyEventIgnore, hookfree, mapFind_erase, hk]
        · simp [applyEventIgnore, hookfree, mapFind_erase, hk, h0]
    exact ih (applyEventIgnore ignore rn m e) (fun cs hcs => h cs (by simp [hcs])) hstep

/-- Claim C3: an allocation whose immediate caller (the first call-stack
frame, resolved to a function name) is on the IgnoreList is never inserted
into the block map and never contributes to a reported leak count,
independent of the surrounding events. -/
theorem ignorelist_never_tracked (ignore : List String) (rn : Nat → String)
    (evs : List Event) (heap : List HeapBlock) (k : Nat)
    (h : ∀ cs, Event.alloc k cs ∈ evs →
        ∃ pc, cs.head? = some pc ∧ ignore.contains (rn pc) = true) :
    mapFind (processEventsIgnore ignore rn [] evs) k = none
    ∧ reportleaksCount (processEventsIgnore ignore rn [] evs) heap
        = reportleaksCount (processEventsIgnore ignore rn [] evs)
            (heap.filter (fun b => b.lRequest != k)) := by
  have hnone := processEventsIgnore_find_none ignore rn k evs [] h rfl
  exact ⟨hnone, reportleaksCount_filter_ne _ k hnone heap⟩

/-- Witness for ignorelist_never_tracked: one allocation whose caller
GetOSVersion is on the ignore list. -/
theorem ignorelist_never_tracked_witness :
    mapFind (processEventsIgnore ["GetOSVersion"] (fun _ => "GetOSVersion") []
        [Event.alloc 5 [42]]) 5 = none
    ∧ reportleaksCount (processEventsIgnore ["GetOSVersion"]
          (fun _ => "GetOSVersion") [] [Event.alloc 5 [42]])
        [HeapBlock.mk 5 1 32]
        = reportleaksCount (processEventsIgnore ["GetOSVersion"]
            (fun _ => "GetOSVersion") [] [Event.alloc 5 [42]])
            (([HeapBlock.mk 5 1 32]).filter (fun b => b.lRequest != 5)) :=
  ignorelist_never_tracked ["GetOSVersion"] (fun _ => "GetOSVersion")
    [Event.alloc 5 [42]] [HeapBlock.mk 5 1 32] 5
    (by
      intro cs hcs
      simp only [List.mem_singleton, Event.alloc.injEq, true_and] at hcs
      subst hcs
      exact ⟨42, rfl, by decide⟩)

/-! ## Reportleaks called twice -/

/-- Counterexample to claim C5: one leaked block, no intervening events; the
second reportleaks call reports leak count 1 again, not 0 — reportleaks only
reads the block map (find) and marks nothing as reported. -/
theorem reportleaks_second_call_not_zero :
    (reportleaksScan [(1, [100])] [HeapBlock.mk 1 1 16]).1 = 1
    ∧ (reportleaksScan (reportleaksScan [(1, [100])] [HeapBlock.mk 1 1 16]).2
        [HeapBlock.mk 1 1 16]).1 = 1
    ∧ ¬(reportleaksScan (reportleaksScan [(1, [100])] [HeapBlock.mk 1 1 16]).2
        [HeapBlock.mk 1 1 16]).1 = 0 := by
  decide

/-- Claim C5 (amended): reportleaks does not modify the block map, so a
second call with no intervening allocation or free events reports exactly
the same leak count as the first call (zero only when the first call already
reported zero). -/
theorem reportleaks_second_call_same (m : BlockMap) (heap : List HeapBlock) :
    (reportleaksScan m heap).2 = m
    ∧ (reportleaksScan (reportleaksScan m heap).2 heap).1
        = (reportleaksScan m heap).1 := by
  have h := reportleaksScan_snd m heap
  exact ⟨h, by rw [h]⟩

/-! ## Report truncation -/

set_option maxRecDepth 8000 in
/-- Claim C6 (code bug in vld.cpp): at a formatted message of 513
characters, _vsnprintf fills all 513 cells of the report buffer of
VisualLeakDetector::report and appends no null terminator, and the code
stores none either, so the output is not truncated to capacity - 1
characters plus terminator; the report in utility.cpp, which stores a
terminator at index maxlen unconditionally, emits the correctly truncated
message. -/
theorem vldreport_unterminated_at_capacity :
    (vldReportBuffer (List.replicate 513 65)).length = MAXREPORTMESSAGESIZE
    ∧ (vldReportBuffer (List.replicate 513 65)).all (fun c => c != 0) = true
    ∧ utilityReportEmitted 512 (List.replicate 513 65) = List.replicate 512 65 := by
  decide

/-! ## The stack walking loop -/

theorem getstacktrace_eq_takeWhile :
    ∀ (maxframes : Nat) (svc : List WalkFrame),
      getstacktrace maxframes svc
        = ((svc.take maxframes).takeWhile frameOK).map framePC := by
  intro maxframes
  induction maxframes with
  | zero =>
    intro svc
    simp [getstacktrace]
  | succ n ih =>
    intro svc
    cases svc with
    | nil => simp [getstacktrace]
    | cons f rest =>
      cases f with
      | none =>
        simp [getstacktrace, List.take_succ_cons, List.takeWhile_cons, frameOK]
      | some pf =>
        obtain ⟨pc, fp⟩ := pf
        by_cases hfp : fp = 0
        · simp [getstacktrace, hfp, List.take_succ_cons, List.takeWhile_cons,
            frameOK]
        · simp [getstacktrace, hfp, List.take_succ_cons, List.takeWhile_cons,
            frameOK, framePC, ih]

/-- Claim C8: the stack walk appends exactly the program counter of each
successfully resolved, non-sentinel frame, stopping at the frame bound, at a
StackWalk64 failure or at a zero frame pointer; the resulting call stack has
at most maxframes entries. -/
theorem getstacktrace_spec (maxframes : Nat) (svc : List WalkFrame) :
    getstacktrace maxframes svc
      = ((svc.take maxframes).takeWhile frameOK).map framePC
    ∧ (getstacktrace maxframes svc).length ≤ maxframes := by
  refine ⟨getstacktrace_eq_takeWhile maxframes svc, ?_⟩
  rw [getstacktrace_eq_takeWhile maxframes svc]
  calc (((svc.take maxframes).takeWhile frameOK).map framePC).length
      = ((svc.take maxframes).takeWhile frameOK).length := List.length_map _ _
    _ ≤ (svc.take maxframes).length := (List.takeWhile_prefix _).length_le
    _ ≤ maxframes := List.length_take_le _ _

/-! ## IAT scan-and-overwrite lemmas -/

theorem iatOverwrite_of_count_zero (key val : Nat) :
    ∀ l, countBeforeZero key l = 0 → iatOverwrite key val l = l := by
  intro l h
  induction l with
  | nil => rfl
  | cons e rest ih =>
    by_cases h0 : e = 0
    · simp [iatOverwrite, h0]
    · by_cases hek : e = key
      · exfalso
        simp [countBeforeZero, h0, hek] at h
        exact (hek ▸ h0) h
      · simp only [countBeforeZero, if_neg h0, if_neg hek, Nat.zero_add] at h
        simp [iatOverwrite, h0, hek, ih h]

theorem iatOverwrite_roundtrip (k v : Nat) (hv0 : v ≠ 0) :
    ∀ l, v ∉ l → iatOverwrite v k (iatOverwrite k v l) = l := by
  intro l hv
  induction l with
  | nil => rfl
  | cons e rest ih =>
    simp only [List.mem_cons, not_or] at hv
    obtain ⟨hve, hvrest⟩ := hv
    by_cases h0 : e = 0
    · simp [iatOverwrite, h0]
    · by_cases hek : e = k
      · have hk0 : k ≠ 0 := hek ▸ h0
        simp [iatOverwrite, h0, hek, hk0, hv0]
      · have hev : e ≠ v := fun hh => hve hh.symm
        simp [iatOverwrite, h0, hek, hev, ih hvrest]

theorem iatOverwrite_comm (k1 v1 k2 v2 : Nat) (hk : k1 ≠ k2) (h12 : v1 ≠ k2)
    (h21 : v2 ≠ k1) (hv1 : v1 ≠ 0) (hv2 : v2 ≠ 0) :
    ∀ l, iatOverwrite k1 v1 (iatOverwrite k2 v2 l)
      = iatOverwrite k2 v2 (iatOverwrite k1 v1 l) := by
  intro l
  induction l with
  | nil => rfl
  | cons e rest ih =>
    by_cases h0 : e = 0
    · simp [iatOverwrite, h0]
    · by_cases he1 : e = k1
      · have he2 : e ≠ k2 := he1 ▸ hk
        have hk10 : k1 ≠ 0 := he1 ▸ h0
        simp [iatOverwrite, h0, he1, he2, hk10, hk, hv1, h12]
      · by_cases he2 : e = k2
        · have hk20 : k2 ≠ 0 := he2 ▸ h0
          simp [iatOverwrite, h0, he1, he2, hk20, Ne.symm hk, hv2, h21]
        · simp [iatOverwrite, h0, he1, he2, ih]

theorem iatOverwrite_idem (k v : Nat) (hvk : v ≠ k) :
    ∀ l, countBeforeZero k l ≤ 1
      → iatOverwrite k v (iatOverwrite k v l) = iatOverwrite k v l := by
  intro l hc
  induction l with
  | nil => rfl
  | cons e rest ih =>
    by_cases h0 : e = 0
    · simp [iatOverwrite, h0]
    · by_cases hek : e = k
      · have hk0 : k ≠ 0 := hek ▸ h0
        by_cases hv0 : v = 0
        · simp [iatOverwrite, h0, hek, hk0, hv0]
        · have hcrest : countBeforeZero k rest = 0 := by
            simp only [countBeforeZero, if_neg h0, if_pos hek] at hc
            omega
          simp [iatOverwrite, h0, hek, hk0, hv0, hvk,
            iatOverwrite_of_count_zero k v rest hcrest]
      · have hcrest : countBeforeZero k rest ≤ 1 := by
          simpa [countBeforeZero, h0, hek] using hc
        simp [iatOverwrite, h0, hek, ih hcrest]

theorem iatOverwrite_count_le (k k' v : Nat) (hvk : v ≠ k) :
    ∀ l, countBeforeZero k (iatOverwrite k' v l) ≤ countBeforeZero k l := by
  intro l
  induction l with
  | nil => exact Nat.le_refl _
  | cons e rest ih =>
    by_cases h0 : e = 0
    · simp [iatOverwrite, countBeforeZero, h0]
    · by_cases hek' : e = k'
      · have hk'0 : k' ≠ 0 := hek' ▸ h0
        by_cases hv0 : v = 0
        · simp [iatOverwrite, countBeforeZero, h0, hek', hk'0, hv0]
        · simp only [iatOverwrite, if_neg h0, if_pos hek', countBeforeZero,
            if_neg hk'0, if_neg hv0, if_neg hvk, Nat.zero_add]
          exact Nat.le_add_left _ _
      · simp only [iatOverwrite, if_neg h0, if_neg hek', countBeforeZero]
        exact Nat.add_le_add_left ih _

/-! ## Import descriptor table lemmas -/

theorem updateIDT_cancel (en : String) (f g : List Nat → List Nat) :
    ∀ m : ModuleImports,
      (∀ d ∈ m, strieq d.1 en = true → g (f d.2) = d.2) →
      updateIDT en g (updateIDT en f m) = m := by
  intro m h
  induction m with
  | nil => rfl
  | cons d rest ih =>
    obtain ⟨n, iat⟩ := d
    by_cases hn : strieq n en
    · simp only [updateIDT, if_pos hn]
      rw [h (n, iat) (List.mem_cons_self _ _) hn]
    · simp only [updateIDT, if_neg hn]
      rw [ih (fun d' hd' hn' => h d' (List.mem_cons_of_mem _ hd') hn')]

theorem updateIDT_idem (en : String) (f : List Nat → List Nat) :
    ∀ m : ModuleImports,
      (∀ d ∈ m, strieq d.1 en = true → f (f d.2) = f d.2) →
      updateIDT en f (updateIDT en f m) = updateIDT en f m := by
  intro m h
  induction m with
  | nil => rfl
  | cons d rest ih =>
    obtain ⟨n, iat⟩ := d
    by_cases hn : strieq n en
    · simp only [updateIDT, if_pos hn]
      rw [h (n, iat) (List.mem_cons_self _ _) hn]
    · simp only [updateIDT, if_neg hn]
      rw [ih (fun d' hd' hn' => h d' (List.mem_cons_of_mem _ hd') hn')]

theorem updateIDT_comm (en1 en2 : String) (f1 f2 : List Nat → List Nat)
    (hc : ∀ iat, f1 (f2 iat) = f2 (f1 iat)) :
    ∀ m : ModuleImports,
      updateIDT en1 f1 (updateIDT en2 f2 m)
        = updateIDT en2 f2 (updateIDT en1 f1 m) := by
  intro m
  induction m with
  | nil => rfl
  | cons d rest ih =>
    obtain ⟨n, iat⟩ := d
    by_cases h1 : strieq n en1 <;> by_cases h2 : strieq n en2 <;>
      simp [updateIDT, h1, h2, hc, ih]

theorem updateIDT_forall {P : List Nat → Prop} (en : String)
    (f : List Nat → List Nat) (hf : ∀ iat, P iat → P (f iat)) :
    ∀ m : ModuleImports, (∀ d ∈ m, P d.2) → ∀ d ∈ updateIDT en f m, P d.2 := by
  intro m
  induction m with
  | nil =>
    intro _ d hd
    simp [updateIDT] at hd
  | cons d0 rest ih =>
    obtain ⟨n, iat⟩ := d0
    intro h d hd
    by_cases hn : strieq n en
    · simp only [updateIDT, if_pos hn, List.mem_cons] at hd
      rcases hd with rfl | hd
      · exact hf iat (h (n, iat) (by simp))
      · exact h d (by simp [hd])
    · simp only [updateIDT, if_neg hn, List.mem_cons] at hd
      rcases hd with rfl | hd
      · exact h (n, iat) (by simp)
      · exact ih (fun d' hd' => h d' (by simp [hd'])) d hd

theorem patchmodule_cons (gpa : String → String → Nat) (m : ModuleImports)
    (e : patchentry_t) (t : List patchentry_t) :
    patchmodule gpa m (e :: t)
      = patchmodule gpa
          (patchimport gpa m e.exportmodulename e.importname e.replacement) t := rfl

theorem restoremodule_cons (gpa : String → String → Nat) (m : ModuleImports)
    (e : patchentry_t) (t : List patchentry_t) :
    restoremodule gpa m (e :: t)
      = restoremodule gpa
          (restoreimport gpa m e.exportmodulename e.importname e.replacement) t := rfl

theorem updateIDT_patchmodule_comm (gpa : String → String → Nat) (en : String)
    (f : List Nat → List Nat) :
    ∀ (t : List patchentry_t) (x : ModuleImports),
      (∀ e ∈ t, ∀ iat, f (iatOverwrite (realAddr gpa e) e.replacement iat)
          = iatOverwrite (realAddr gpa e) e.replacement (f iat)) →
      updateIDT en f (patchmodule gpa x t)
        = patchmodule gpa (updateIDT en f x) t := by
  intro t
  induction t with
  | nil =>
    intro x _
    rfl
  | cons e t' ih =>
    intro x h
    rw [patchmodule_cons, patchmodule_cons,
      ih _ (fun e' he' iat => h e' (by simp [he']) iat)]
    congr 1
    exact updateIDT_comm en e.exportmodulename f _ (h e (by simp)) x

/-- Claim C4: patching a module with a patch table and then restoring it
with the same table leaves every import address table entry holding its
original address, provided the replacement addresses are fresh: nonzero,
pairwise distinct, different from every entry's real import address, and not
already present in any IAT, with the real addresses nonzero and pairwise
distinct. -/
theorem patch_restore_roundtrip (gpa : String → String → Nat)
    (m : ModuleImports) (t : List patchentry_t)
    (h1 : ∀ e ∈ t, e.replacement ≠ 0)
    (h2 : (t.map patchentry_t.replacement).Nodup)
    (h3 : (t.map (realAddr gpa)).Nodup)
    (h4 : ∀ e ∈ t, ∀ e' ∈ t, e.replacement ≠ realAddr gpa e')
    (h5 : ∀ e ∈ t, ∀ d ∈ m, e.replacement ∉ d.2)
    (h6 : ∀ e ∈ t, realAddr gpa e ≠ 0) :
    restoremodule gpa (patchmodule gpa m t) t = m := by
  induction t generalizing m with
  | nil => rfl
  | cons e t' ih =>
    rw [restoremodule_cons, patchmodule_cons]
    rw [List.map_cons] at h2 h3
    obtain ⟨hrepl_tail, h2t⟩ := List.nodup_cons.mp h2
    obtain ⟨hreal_tail, h3t⟩ := List.nodup_cons.mp h3
    have hcomm :
        restoreimport gpa
            (patchmodule gpa
              (patchimport gpa m e.exportmodulename e.importname e.replacement) t')
            e.exportmodulename e.importname e.replacement
          = patchmodule gpa
              (restoreimport gpa
                (patchimport gpa m e.exportmodulename e.importname e.replacement)
                e.exportmodulename e.importname e.replacement) t' := by
      unfold restoreimport
      apply updateIDT_patchmodule_comm
      intro e' he' iat
      apply iatOverwrite_comm
      · exact h4 e (by simp) e' (by simp [he'])
      · intro hh
        have hh' : realAddr gpa e = realAddr gpa e' := hh
        exact hreal_tail (by rw [hh']; exact List.mem_map_of_mem (realAddr gpa) he')
      · intro hh
        apply hrepl_tail
        rw [← hh]
        exact List.mem_map_of_mem patchentry_t.replacement he'
      · exact h6 e (by simp)
      · exact h1 e' (by simp [he'])
    have hcancel :
        restoreimport gpa
            (patchimport gpa m e.exportmodulename e.importname e.replacement)
            e.exportmodulename e.importname e.replacement = m := by
      unfold restoreimport patchimport
      apply updateIDT_cancel
      intro d hd _
      exact iatOverwrite_roundtrip (realAddr gpa e) e.replacement
        (h1 e (by simp)) d.2 (h5 e (by simp) d hd)
    rw [hcomm, hcancel]
    exact ih m (fun e' he' => h1 e' (by simp [he'])) h2t h3t
      (fun e' he' e'' he'' => h4 e' (by simp [he']) e'' (by simp [he'']))
      (fun e' he' d hd => h5 e' (by simp [he']) d hd)
      (fun e' he' => h6 e' (by simp [he']))

/-- Witness for patch_restore_roundtrip: one module, one table entry whose
replacement address 99 is fresh; the module name matches the table entry's
export module name only case-insensitively. -/
theorem patch_restore_roundtrip_witness :
    restoremodule (fun _ _ => 10)
        (patchmodule (fun _ _ => 10) [("KERNEL32.DLL", [10, 20, 0])]
          [patchentry_t.mk "kernel32.dll" "HeapAlloc" 99])
        [patchentry_t.mk "kernel32.dll" "HeapAlloc" 99]
      = [("KERNEL32.DLL", [10, 20, 0])] :=
  patch_restore_roundtrip (fun _ _ => 10) [("KERNEL32.DLL", [10, 20, 0])]
    [patchentry_t.mk "kernel32.dll" "HeapAlloc" 99]
    (by decide) (by decide) (by decide) (by decide) (by decide) (by decide)

/-- Claim C7: patching an already patched module with the same table a
second time is a no-op, because after the first patch no scanned IAT entry
holds a real import address any more, provided each real address occurs at
most once in each IAT scan region, the real addresses are nonzero and
pairwise distinct, and the replacements are nonzero and differ from every
real address. -/
theorem patchmodule_idempotent (gpa : String → String → Nat)
    (m : ModuleImports) (t : List patchentry_t)
    (h1 : ∀ e ∈ t, e.replacement ≠ 0)
    (h3 : (t.map (realAddr gpa)).Nodup)
    (h4 : ∀ e ∈ t, ∀ e' ∈ t, e.replacement ≠ realAddr gpa e')
    (h5 : ∀ e ∈ t, ∀ d ∈ m, countBeforeZero (realAddr gpa e) d.2 ≤ 1) :
    patchmodule gpa (patchmodule gpa m t) t = patchmodule gpa m t := by
  induction t generalizing m with
  | nil => rfl
  | cons e t' ih =>
    rw [patchmodule_cons, patchmodule_cons]
    rw [List.map_cons] at h3
    obtain ⟨hreal_tail, h3t⟩ := List.nodup_cons.mp h3
    have hcomm :
        patchimport gpa
            (patchmodule gpa
              (patchimport gpa m e.exportmodulename e.importname e.replacement) t')
            e.exportmodulename e.importname e.replacement
          = patchmodule gpa
              (patchimport gpa
                (patchimport gpa m e.exportmodulename e.importname e.replacement)
                e.exportmodulename e.importname e.replacement) t' := by
      unfold patchimport
      apply updateIDT_patchmodule_comm
      intro e' he' iat
      apply iatOverwrite_comm
      · intro hh
        have hh' : realAddr gpa e = realAddr gpa e' := hh
        exact hreal_tail (by rw [hh']; exact List.mem_map_of_mem (realAddr gpa) he')
      · exact h4 e (by simp) e' (by simp [he'])
      · exact h4 e' (by simp [he']) e (by simp)
      · exact h1 e (by simp)
      · exact h1 e' (by simp [he'])
    have hidem :
        patchimport gpa
            (patchimport gpa m e.exportmodulename e.importname e.replacement)
            e.exportmodulename e.importname e.replacement
          = patchimport gpa m e.exportmodulename e.importname e.replacement := by
      unfold patchimport
      apply updateIDT_idem
      intro d hd _
      exact iatOverwrite_idem (realAddr gpa e) e.replacement
        (h4 e (by simp) e (by simp)) d.2 (h5 e (by simp) d hd)
    rw [hcomm, hidem]
    exact ih (patchimport gpa m e.exportmodulename e.importname e.replacement)
      (fun e' he' => h1 e' (by simp [he'])) h3t
      (fun e' he' e'' he'' => h4 e' (by simp [he']) e'' (by simp [he'']))
      (fun e' he' d hd => by
        refine @updateIDT_forall
          (fun iat => countBeforeZero (realAddr gpa e') iat ≤ 1)
          e.exportmodulename _ ?_ m ?_ d hd
        · intro iat hP
          exact le_trans
            (iatOverwrite_count_le (realAddr gpa e') (realAddr gpa e)
              e.replacement (h4 e (by simp) e' (by simp [he'])) iat) hP
        · intro d' hd'
          exact h5 e' (by simp [he']) d' hd')

/-- Witness for patchmodule_idempotent: one module whose IAT holds the real
address 10 once; patching twice with replacement 99 equals patching once. -/
theorem patchmodule_idempotent_witness :
    patchmodule (fun _ _ => 10)
        (patchmodule (fun _ _ => 10) [("a", [10, 0])]
          [patchentry_t.mk "A" "x" 99])
        [patchentry_t.mk "A" "x" 99]
      = patchmodule (fun _ _ => 10) [("a", [10, 0])]
          [patchentry_t.mk "A" "x" 99] :=
  patchmodule_idempotent (fun _ _ => 10) [("a", [10, 0])]
    [patchentry_t.mk "A" "x" 99]
    (by decide) (by decide) (by decide) (by decide)

/-! ## The symbol search path -/

theorem noAdjQuotes_tail (c : Char) (rest : List Char)
    (h : noAdjQuotes (c :: rest) = true) : noAdjQuotes rest = true := by
  cases rest with
  | nil => rfl
  | cons d r2 =>
    by_cases hc : c = '"' ∧ d = '"'
    · simp [noAdjQuotes, hc] at h
    · simpa [noAdjQuotes, hc] using h

theorem removeQuotes_eq_filter_aux :
    ∀ (n : Nat) (l : List Char), l.length ≤ n → noAdjQuotes l = true →
      removeQuotes l = l.filter (fun c => c != '"') := by
  intro n
  induction n with
  | zero =>
    intro l h1 _
    have : l = [] := List.eq_nil_of_length_eq_zero (Nat.le_zero.mp h1)
    subst this
    rfl
  | succ n ihn =>
    intro l h1 h2
    cases l with
    | nil => rfl
    | cons c rest =>
      by_cases hc : c = '"'
      · cases rest with
        | nil => simp [removeQuotes, hc]
        | cons d r2 =>
          have hd : d ≠ '"' := by
            intro hdq
            simp [noAdjQuotes, hc, hdq] at h2
          have h2' : noAdjQuotes r2 = true :=
            noAdjQuotes_tail d r2 (noAdjQuotes_tail c (d :: r2) h2)
          have hlen : r2.length ≤ n := by
            simp only [List.length_cons] at h1
            omega
          simp [removeQuotes, hc, List.filter_cons, hd, ihn r2 hlen h2']
      · cases rest with
        | nil => simp [removeQuotes, hc]
        | cons d r2 =>
          have h2' : noAdjQuotes (d :: r2) = true := noAdjQuotes_tail c _ h2
          have hlen : (d :: r2).length ≤ n := by
            simp only [List.length_cons] at h1 ⊢
            omega
          simp [removeQuotes, hc, List.filter_cons, ihn (d :: r2) hlen h2']

theorem removeQuotes_eq_filter (l : List Char) (h : noAdjQuotes l = true) :
    removeQuotes l = l.filter (fun c => c != '"') :=
  removeQuotes_eq_filter_aux l.length l (Nat.le_refl _) h

theorem filter_around (p : Char → Bool) (a mid b : List Char)
    (hmid : mid.filter p = mid) :
    ∃ l r, (a ++ mid ++ b).filter p = l ++ mid ++ r :=
  ⟨a.filter p, b.filter p, by simp [List.filter_append, hmid]⟩

/-- Claim C9 (amended): buildsymbolsearchpath produces the executable's
directory (extracted quote-aware from the command line), the current working
directory ".\", and the environment-supplied symbol directories,
concatenated with semicolons and not de-duplicated; the final pass deletes
quote characters but skips the character following each deleted quote, so
whenever the concatenation has no two adjacent quotes the result is exactly
the concatenation with all quotes removed, hence quote-free and still
containing the working-directory component. -/
theorem buildsymbolsearchpath_amended (cmd : List Char)
    (sysroot ntsym ntalt : Option (List Char))
    (h : noAdjQuotes (symsearchConcat cmd sysroot ntsym ntalt) = true) :
    buildsymbolsearchpath cmd sysroot ntsym ntalt
      = (symsearchConcat cmd sysroot ntsym ntalt).filter (fun c => c != '"')
    ∧ '"' ∉ buildsymbolsearchpath cmd sysroot ntsym ntalt
    ∧ ∃ l r, buildsymbolsearchpath cmd sysroot ntsym ntalt
        = l ++ [';', '.', '\\'] ++ r := by
  have heq : buildsymbolsearchpath cmd sysroot ntsym ntalt
      = (symsearchConcat cmd sysroot ntsym ntalt).filter (fun c => c != '"') :=
    removeQuotes_eq_filter _ h
  refine ⟨heq, ?_, ?_⟩
  · rw [heq]
    intro hmem
    have := (List.mem_filter.mp hmem).2
    simp at this
  · rw [heq]
    exact filter_around _ _ _ _ (by decide)

/-- Witness for buildsymbolsearchpath_amended: a quoted command line with an
embedded space, SYSTEMROOT set, and one extra symbol path. -/
theorem buildsymbolsearchpath_amended_witness :
    buildsymbolsearchpath "\"C:\\my app\\run.exe\" -x".data
        (some "C:\\WINDOWS".data) none (some "D:\\sym".data)
      = (symsearchConcat "\"C:\\my app\\run.exe\" -x".data
          (some "C:\\WINDOWS".data) none (some "D:\\sym".data)).filter
          (fun c => c != '"')
    ∧ '"' ∉ buildsymbolsearchpath "\"C:\\my app\\run.exe\" -x".data
        (some "C:\\WINDOWS".data) none (some "D:\\sym".data) :=
  ⟨(buildsymbolsearchpath_amended _ _ _ _ (by decide)).1,
   (buildsymbolsearchpath_amended _ _ _ _ (by decide)).2.1⟩

/-- Counterexample to claim C9 as stated: the path is not de-duplicated
(with _NT_SYMBOL_PATH and _NT_ALT_SYMBOL_PATH both "C:\sym" the directory
appears twice), and a pair of adjacent quotes survives the quote-removal
pass (the shift-and-skip loop removes only the first of the pair). -/
theorem buildsymbolsearchpath_counterexample :
    ¬ ((buildsymbolsearchpath "app.exe".data none (some "C:\\sym".data)
        (some "C:\\sym".data)).splitOn ';').Nodup
    ∧ '"' ∈ buildsymbolsearchpath "app.exe".data none none
        (some ['"', '"', 'x']) := by
  decide

end VLD
